import Mathlib

/-!
Shallow embedding of the cellular-automaton bot `sundryautomata`
(source files `sundryautomata.py` and `gen.py`; the CA engine is the same
code in both, so the definitions below cite line numbers of
`sundryautomata.py` and, where the two differ only in naming, keep the
camel-case names of `gen.py`).

Rows of the automaton are Python strings over the characters 0 and 1;
they are embedded as `List Char`.  Python `dict`s keyed by strings are
embedded as association lists (`List (List Char × Char)`) looked up with
`List.lookup`; a `KeyError` becomes `Option.none`.  Python integer
arithmetic is `Nat`/`Int` arithmetic.  The float computation
`max(3, math.ceil(math.log2(math.log2(rule+1))))` is embedded by its
exact real-number value (see `currentStateWidth` below); for the rule
range the program draws from (`random.randint` bounded by `2**32`) the
float computation is exact at every decision boundary (the boundaries
are powers of two, which `math.log2` maps exactly), so the embedding
agrees with the code there.
-/

/-- Python slice index resolution: for a sequence of length `n`, a
(possibly negative) index `i` used in a slice resolves to
`max 0 (n + i)` when `i < 0` and to `min i n` otherwise. -/
def pyIndex (n : Nat) (i : Int) : Nat :=
  if i < 0 then ((n : Int) + i).toNat else min i.toNat n

/-- Python slice `s[lo:hi]` (step 1): the elements with resolved indices
in `[pyIndex n lo, pyIndex n hi)`. -/
def pySlice (s : List Char) (lo hi : Int) : List Char :=
  (s.take (pyIndex s.length hi)).drop (pyIndex s.length lo)

/-- Fuel-driven helper for `natToBits`; the fuel is only there to make
the recursion structural (hence kernel-reducible), `natToBits` always
supplies enough. -/
def natToBitsAux : Nat → Nat → List Char
  | 0, _ => []
  | fuel + 1, n =>
    if n < 2 then [if n = 0 then '0' else '1']
    else natToBitsAux fuel (n / 2) ++ [if n % 2 = 0 then '0' else '1']

/-- Python `format(n, 'b')` / `bin(n)[2:]`: big-endian binary digits of
`n`, with `"0"` for `n = 0`. -/
def natToBits (n : Nat) : List Char :=
  natToBitsAux (n + 1) n

/-- Python `str.zfill(k)`: left-pad with the character 0 to length `k`
(no-op when the string is already at least that long). -/
def zfill (k : Nat) (s : List Char) : List Char :=
  List.replicate (k - s.length) '0' ++ s

/-- Numeric value of a big-endian binary string (a character counts 1
exactly when it is the character 1). -/
def bitsVal : List Char → Nat
  | [] => 0
  | c :: t => (if c = '1' then 1 else 0) * 2 ^ t.length + bitsVal t

/-- A Python row of the automaton: every character is 0 or 1. -/
def isBitString (s : List Char) : Prop :=
  ∀ c ∈ s, c = '0' ∨ c = '1'

instance (s : List Char) : Decidable (isBitString s) := by
  unfold isBitString; infer_instance

/-- Fuel-driven helper for `ceilLog2`. -/
def ceilLog2Aux : Nat → Nat → Nat
  | 0, _ => 0
  | fuel + 1, n => if n ≤ 1 then 0 else ceilLog2Aux fuel ((n + 1) / 2) + 1

/-- Exact value of `math.ceil(math.log2(n))` for a positive integer `n`
(and `0` for `n ≤ 1`, where the float expression is `≤ 0` or an error):
the least `j` with `n ≤ 2 ^ j`.  Defined with fuel so that it is
kernel-reducible; proved equal to `Nat.clog 2` below. -/
def ceilLog2 (n : Nat) : Nat :=
  ceilLog2Aux n n

/-- From `sundryautomata.py` line 456,
`current_state_width = max(3, math.ceil(math.log2(math.log2(rule+1))))`.
For `rule = 0` the inner expression is `math.log2(0.0)`, which raises
`ValueError: math domain error` in Python, so the computation fails:
embedded as `none`.  For `rule ≥ 1` the value is
`max 3 ⌈log₂ log₂ (rule+1)⌉`; since `⌈log₂ x⌉ ≤ j ↔ x ≤ 2 ^ j` for every
real `x > 0` and integer `2 ^ j`, we have
`⌈log₂ log₂ m⌉ = ⌈log₂ ⌈log₂ m⌉⌉` for `m ≥ 2`, which is
`ceilLog2 (ceilLog2 m)`. -/
def currentStateWidth (rule : Nat) : Option Nat :=
  if rule = 0 then none
  else some (max 3 (ceilLog2 (ceilLog2 (rule + 1))))

/-- From `sundryautomata.py` line 459:
`rule_binary = format(rule, 'b').zfill(int(math.pow(2, current_state_width)))`. -/
def ruleBinary (rule k : Nat) : List Char :=
  zfill (2 ^ k) (natToBits rule)

/-- From `sundryautomata.py` line 463 (name as spelled in the source):
`transistions = {bin(current_state)[2:].zfill(current_state_width): resulting_state
for current_state, resulting_state in enumerate(reversed(rule_binary))}`,
embedded as the association list of (key, value) pairs in insertion
order. -/
def transistions (rb : List Char) (k : Nat) : List (List Char × Char) :=
  (rb.reverse.enum).map (fun p => (zfill k (natToBits p.1), p.2))

/-- From `sundryautomata.py` lines 456-463 as one operation (the spec calls it
`deriveTransitionTable`): compute the neighborhood width and the
transition table from a rule number; `none` when the width computation
raises. -/
def deriveTransitionTable (rule : Nat) : Option (Nat × List (List Char × Char)) :=
  (currentStateWidth rule).map (fun k => (k, transistions (ruleBinary rule k) k))

/-- From `sundryautomata.py` line 475:
`current_state_padded = current_state[-math.floor(current_state_width/2):width]
+ current_state + current_state[0:current_state_width-math.floor(current_state_width/2)-1]`. -/
def currentStatePadded (k width : Nat) (s : List Char) : List Char :=
  pySlice s (-((k : Int) / 2)) (width : Int) ++ s ++
    pySlice s 0 ((k : Int) - (k : Int) / 2 - 1)

/-- The inner `for x in range(0, width)` loop of `sundryautomata.py`
lines 477-480, started at position `x` with `n` iterations left: looks
each window `pattern = current_state_padded[x:x+current_state_width]` up
in the table and concatenates the produced cells; `none` on a
`KeyError`. -/
def nextCells (table : List (List Char × Char)) (k : Nat) (padded : List Char)
    (x : Nat) : Nat → Option (List Char)
  | 0 => some []
  | n + 1 =>
    match table.lookup (pySlice padded (x : Int) ((x : Int) + (k : Int))),
        nextCells table k padded (x + 1) n with
    | some c, some rest => some (c :: rest)
    | _, _ => none

/-- One generation step (`sundryautomata.py` lines 474-480): pad the
current state, then produce the `width` cells of the next state. -/
def nextState (table : List (List Char × Char)) (k width : Nat)
    (s : List Char) : Option (List Char) :=
  nextCells table k (currentStatePadded k width s) 0 width

/-- From `sundryautomata.py` line 484:
`boring = next_state == current_state or next_state[1:] == current_state[:-1]
or next_state[:-1] == current_state[1:]`. -/
def boring (ns s : List Char) : Bool :=
  ns == s || ns.drop 1 == s.dropLast || ns.dropLast == s.drop 1

/-- The `for y in range(0, height + generation_offset)` loop of
`sundryautomata.py` lines 473-489 with `n` iterations left, current
state `s`: returns the list of generations appended to the grid and
whether the loop ended in the boring-rule `break` (which is only taken
when `canRetry`, i.e. `remaining_tries > 1`).  `none` embodies an
uncaught `KeyError`. -/
def simLoop (table : List (List Char × Char)) (k width : Nat) (canRetry : Bool) :
    Nat → List Char → Option (List (List Char) × Bool)
  | 0, _ => some ([], false)
  | n + 1, s =>
    match nextState table k width s with
    | none => none
    | some ns =>
      if boring ns s && canRetry then some ([ns], true)
      else (simLoop table k width canRetry n ns).map (fun p => (ns :: p.1, p.2))

/-- The plain simulation loop of `gen.py` lines 184-197 (no boring
check): grid of the initial state followed by `steps` successor
generations. -/
def simulate (table : List (List Char × Char)) (k width steps : Nat)
    (init : List Char) : Option (List (List Char)) :=
  (simLoop table k width false steps init).map (fun p => init :: p.1)

/-- The retry loop of `sundryautomata.py` lines 441-489
(`retry = True; remaining_tries = 3; while retry and remaining_tries > 0: ...`).
The stream of pseudo-random draws is passed in as `attempts`, one
`(rule, initial_state)` pair per loop iteration; `remaining` is
`remaining_tries`.  Each iteration derives the table (crash = `none`),
simulates `height + generation_offset` steps with the boring `break`
armed exactly when `remaining_tries > 1`, and either accepts the grid or
retries with the budget decremented. -/
def outerLoop (width height genOffset : Nat) :
    Nat → List (Nat × List Char) → Option (List (List Char))
  | _, [] => none
  | remaining, (rule, init) :: rest =>
    match deriveTransitionTable rule with
    | none => none
    | some (k, table) =>
      match simLoop table k width (decide (1 < remaining)) (height + genOffset) init with
      | none => none
      | some (states, broke) =>
        if broke then outerLoop width height genOffset (remaining - 1) rest
        else some (init :: states)

/-- A pseudo-random draw the program can actually simulate to completion
at grid width `w`: positive rule (rule 0 crashes the width computation),
an initial state of `w` cells over 0/1, and a neighborhood width that
fits into the row (in the program `w ≥ 50` while the width is at most 6
for rules up to `2^32`). -/
def validAttempt (w : Nat) (a : Nat × List Char) : Prop :=
  1 ≤ a.1 ∧ a.2.length = w ∧ isBitString a.2 ∧
    max 3 (ceilLog2 (ceilLog2 (a.1 + 1))) ≤ w

instance (w : Nat) (a : Nat × List Char) : Decidable (validAttempt w a) := by
  unfold validAttempt; infer_instance

/-- From `sundryautomata.py` line 375:
`required_image_width = math.sin(abs(angle)) * image_height
+ math.cos(abs(angle)) * image_width`. -/
noncomputable def requiredImageWidth (angle imageWidth imageHeight : ℝ) : ℝ :=
  Real.sin |angle| * imageHeight + Real.cos |angle| * imageWidth

/-- From `sundryautomata.py` line 376:
`required_image_height = math.sin(abs(angle)) * image_width
+ math.cos(abs(angle)) * image_height`. -/
noncomputable def requiredImageHeight (angle imageWidth imageHeight : ℝ) : ℝ :=
  Real.sin |angle| * imageWidth + Real.cos |angle| * imageHeight

/-- From `sundryautomata.py` lines 378-379:
`translation = ((required_image_width - image_width) / 2,
(required_image_height - image_height) / 2)`. -/
noncomputable def translation (angle imageWidth imageHeight : ℝ) : ℝ × ℝ :=
  ((requiredImageWidth angle imageWidth imageHeight - imageWidth) / 2,
   (requiredImageHeight angle imageWidth imageHeight - imageHeight) / 2)

/-- Python float `x % m` for positive modulus `m`: `x - m * ⌊x / m⌋`. -/
def pmod (x m : ℚ) : ℚ :=
  x - m * ⌊x / m⌋

/-- From `sundryautomata.py` lines 160-175: RGB colors (components exact
rationals in place of Python floats). -/
structure ColorRGB where
  r : ℚ
  g : ℚ
  b : ℚ
deriving DecidableEq

/-- From `sundryautomata.py` lines 119-130: HSL colors. -/
structure ColorHSL where
  h : ℚ
  s : ℚ
  l : ℚ
deriving DecidableEq

/-- From `sundryautomata.py` lines 132-158, `ColorHSL.from_rgb`. -/
def ColorHSL.from_rgb (rgb : ColorRGB) : ColorHSL :=
  let r := rgb.r / 255
  let g := rgb.g / 255
  let b := rgb.b / 255
  let c_max := max r (max g b)
  let c_min := min r (min g b)
  let delta := c_max - c_min
  let l := (c_max + c_min) / 2
  let h :=
    if delta = 0 then 0
    else if c_max = r then 60 * pmod ((g - b) / delta) 6
    else if c_max = g then 60 * ((b - r) / delta + 2)
    else 60 * ((r - g) / delta + 4)
  let s := if delta = 0 then 0 else delta / (1 - |2 * l - 1|)
  ⟨h, s, l⟩

/-- From `sundryautomata.py` lines 185-226, `ColorRGB.from_hsl`. -/
def ColorRGB.from_hsl (hsl : ColorHSL) : ColorRGB :=
  let h := hsl.h
  let s := hsl.s
  let l := hsl.l
  let c := (1 - |2 * l - 1|) * s
  let x := c * (1 - |pmod (h / 60) 2 - 1|)
  let m := l - c / 2
  let rgb : ℚ × ℚ × ℚ :=
    if h < 60 then (c, x, 0)
    else if h < 120 then (x, c, 0)
    else if h < 180 then (0, c, x)
    else if h < 240 then (0, x, c)
    else if h < 300 then (x, 0, c)
    else (c, 0, x)
  ⟨((max 0 ⌊(rgb.1 + m) * 255⌋ : ℤ) : ℚ),
   ((max 0 ⌊(rgb.2.1 + m) * 255⌋ : ℤ) : ℚ),
   ((max 0 ⌊(rgb.2.2 + m) * 255⌋ : ℤ) : ℚ)⟩

/-- From `sundryautomata.py` lines 228-237, `ColorRGB.hue_shifted`.  Python
methods may mutate their receiver, so the embedding passes the receiver
state through explicitly: the result is (receiver after the call, return
value).  The body only reads `self` (it mutates the local `hsl`), so the
first component is `self` unchanged. -/
def ColorRGB.hue_shifted (self : ColorRGB) (degrees : ℚ) : ColorRGB × ColorRGB :=
  let hsl := ColorHSL.from_rgb self
  let h1 := hsl.h + degrees
  let h2 := if h1 > 360 then h1 - 360 else if h1 < 0 then h1 + 360 else h1
  (self, ColorRGB.from_hsl ⟨h2, hsl.s, hsl.l⟩)

/-- From `sundryautomata.py` lines 239-248, `ColorRGB.saturation_shifted`,
embedded like `hue_shifted`. -/
def ColorRGB.saturation_shifted (self : ColorRGB) (offset : ℚ) : ColorRGB × ColorRGB :=
  let hsl := ColorHSL.from_rgb self
  let s1 := hsl.s + offset
  let s2 := if s1 > 1 then 1 else if s1 < 0 then 0 else s1
  (self, ColorRGB.from_hsl ⟨hsl.h, s2, hsl.l⟩)

/-- From `sundryautomata.py` lines 250-259, `ColorRGB.lightness_shifted`,
embedded like `hue_shifted` (note the source really subtracts 1.1 when
the shifted lightness exceeds 1). -/
def ColorRGB.lightness_shifted (self : ColorRGB) (offset : ℚ) : ColorRGB × ColorRGB :=
  let hsl := ColorHSL.from_rgb self
  let l1 := hsl.l + offset
  let l2 := if l1 > 1 then l1 - 11/10 else if l1 < 0 then 0 else l1
  (self, ColorRGB.from_hsl ⟨hsl.h, hsl.s, l2⟩)

/-- From `sundryautomata.py` line 317:
`tweeting = all(x is not None for x in [consumer_key, consumer_secret,
access_token, access_token_secret])`.  A configuration value that may be
`None` is embedded as an `Option`. -/
def tweeting (consumer_key consumer_secret access_token access_token_secret :
    Option String) : Bool :=
  [consumer_key, consumer_secret, access_token, access_token_secret].all
    (fun x => !x.isNone)

/-- The spec's reconstruction procedure (stated, not in the source): read
table entry `i` (the value stored under the `k`-bit key with numeric
value `i`) into position `2^k - 1 - i` of a string of length `2^k`;
equivalently, position `p` holds entry `2^k - 1 - p`. -/
def reconstruct (k : Nat) (table : List (List Char × Char)) : List Char :=
  (List.range (2 ^ k)).map
    (fun p => (table.lookup (zfill k (natToBits (2 ^ k - 1 - p)))).getD ' ')

/-! ## Basic facts about the binary-string helpers -/

theorem natToBitsAux_irrel : ∀ f g n, n < f → n < g →
    natToBitsAux f n = natToBitsAux g n := by
  intro f
  induction f with
  | zero => intro g n h; omega
  | succ f ih =>
    intro g n hf hg
    match g, hg with
    | g + 1, _ =>
      show (if n < 2 then _ else _) = (if n < 2 then _ else _)
      by_cases h2 : n < 2
      · simp [h2]
      · simp only [h2, if_false]
        have : natToBitsAux f (n / 2) = natToBitsAux g (n / 2) :=
          ih g (n / 2) (by omega) (by omega)
        rw [this]

theorem natToBits_eq (n : Nat) :
    natToBits n = if n < 2 then [if n = 0 then '0' else '1']
      else natToBits (n / 2) ++ [if n % 2 = 0 then '0' else '1'] := by
  show (if n < 2 then _ else _) = _
  by_cases h2 : n < 2
  · simp [h2]
  · simp only [h2, if_false]
    rw [natToBitsAux_irrel n (n / 2 + 1) (n / 2) (by omega) (by omega)]
    rfl

theorem natToBits_bits (n : Nat) : isBitString (natToBits n) := by
  induction n using Nat.strong_induction_on with
  | _ n ih =>
    rw [natToBits_eq]
    by_cases h2 : n < 2
    · simp only [h2, if_true]
      intro c hc
      rcases List.mem_singleton.mp hc with h
      subst h
      by_cases h0 : n = 0
      · simp [h0]
      · simp [h0]
    · simp only [h2, if_false]
      intro c hc
      rcases List.mem_append.mp hc with h | h
      · exact ih (n / 2) (by omega) c h
      · rcases List.mem_singleton.mp h with h
        subst h
        by_cases h0 : n % 2 = 0
        · simp [h0]
        · simp [h0]

theorem natToBits_ne_nil (n : Nat) : natToBits n ≠ [] := by
  rw [natToBits_eq]
  by_cases h2 : n < 2 <;> simp [h2]

theorem natToBits_length_le (n k : Nat) (hk : 1 ≤ k) (hn : n < 2 ^ k) :
    (natToBits n).length ≤ k := by
  induction n using Nat.strong_induction_on generalizing k with
  | _ n ih =>
    rw [natToBits_eq]
    by_cases h2 : n < 2
    · simp only [h2, if_true, List.length_singleton]; omega
    · simp only [h2, if_false, List.length_append, List.length_singleton]
      have hk2 : 2 ≤ k := by
        by_contra h
        have : k = 1 := by omega
        subst this
        simp at hn
        omega
      have : n / 2 < 2 ^ (k - 1) := by
        have h21 : 2 ^ k = 2 * 2 ^ (k - 1) := by
          conv_lhs => rw [show k = 1 + (k - 1) by omega]
          rw [pow_add, pow_one]
        omega
      have := ih (n / 2) (by omega) (k - 1) (by omega) this
      omega

theorem bitsVal_lt (s : List Char) : bitsVal s < 2 ^ s.length := by
  induction s with
  | nil => simp [bitsVal]
  | cons c t ih =>
    show (if c = '1' then 1 else 0) * 2 ^ t.length + bitsVal t < 2 ^ (t.length + 1)
    rw [pow_succ]
    by_cases h : c = '1' <;> simp [h] <;> omega

theorem bitsVal_append (a b : List Char) :
    bitsVal (a ++ b) = bitsVal a * 2 ^ b.length + bitsVal b := by
  induction a with
  | nil => simp [bitsVal]
  | cons c t ih =>
    show (if c = '1' then 1 else 0) * 2 ^ (t ++ b).length + bitsVal (t ++ b) = _
    rw [ih, List.length_append, pow_add]
    show _ = ((if c = '1' then 1 else 0) * 2 ^ t.length + bitsVal t) * 2 ^ b.length + bitsVal b
    ring

theorem bitsVal_replicate (n : Nat) : bitsVal (List.replicate n '0') = 0 := by
  induction n with
  | zero => rfl
  | succ m ih =>
    rw [List.replicate_succ]
    show (if '0' = '1' then 1 else 0) * 2 ^ (List.replicate m '0').length +
      bitsVal (List.replicate m '0') = 0
    rw [ih]
    simp

theorem bitsVal_zfill (k : Nat) (s : List Char) : bitsVal (zfill k s) = bitsVal s := by
  unfold zfill
  rw [bitsVal_append, bitsVal_replicate]
  simp

theorem bitsVal_natToBits (n : Nat) : bitsVal (natToBits n) = n := by
  induction n using Nat.strong_induction_on with
  | _ n ih =>
    rw [natToBits_eq]
    by_cases h2 : n < 2
    · interval_cases n <;> simp [bitsVal]
    · simp only [h2, if_false]
      rw [bitsVal_append, ih (n / 2) (by omega)]
      by_cases h0 : n % 2 = 0 <;> simp [bitsVal, h0] <;> omega

theorem zfill_length (k : Nat) (s : List Char) :
    (zfill k s).length = max k s.length := by
  unfold zfill
  simp
  omega

theorem zfill_bits (k : Nat) (s : List Char) (h : isBitString s) :
    isBitString (zfill k s) := by
  intro c hc
  rcases List.mem_append.mp hc with h1 | h1
  · left; exact (List.eq_of_mem_replicate h1)
  · exact h c h1

theorem bitsVal_key (k i : Nat) : bitsVal (zfill k (natToBits i)) = i := by
  rw [bitsVal_zfill, bitsVal_natToBits]

theorem key_inj (k : Nat) :
    Function.Injective (fun i => zfill k (natToBits i)) := by
  intro a b hab
  have hab2 : zfill k (natToBits a) = zfill k (natToBits b) := hab
  have ha := bitsVal_key k a
  rw [hab2, bitsVal_key] at ha
  omega

theorem key_length (k i : Nat) (hk : 1 ≤ k) (hi : i < 2 ^ k) :
    (zfill k (natToBits i)).length = k := by
  rw [zfill_length]
  have := natToBits_length_le i k hk hi
  omega

theorem key_bits (k i : Nat) : isBitString (zfill k (natToBits i)) :=
  zfill_bits k _ (natToBits_bits i)

theorem natToBits_zero : natToBits 0 = ['0'] := by decide

theorem natToBits_one : natToBits 1 = ['1'] := by decide

theorem zfill_append_singleton (m : Nat) (u : List Char) (d : Char) :
    zfill (m + 1) (u ++ [d]) = zfill m u ++ [d] := by
  unfold zfill
  have h : m + 1 - (u ++ [d]).length = m - u.length := by
    simp
  rw [h, List.append_assoc]

/-- A nonempty bit string is recovered from its numeric value by `bin`
plus `zfill` back to its own length: this is why every window the
simulation extracts is literally one of the dictionary keys. -/
theorem key_of_bitString (p : List Char) (hb : isBitString p) (hne : p ≠ []) :
    zfill p.length (natToBits (bitsVal p)) = p := by
  induction p using List.reverseRecOn with
  | nil => exact absurd rfl hne
  | append_singleton q c ih =>
    have hc : c = '0' ∨ c = '1' := hb c (by simp)
    have hqb : isBitString q := fun d hd => hb d (by simp [hd])
    have hval : bitsVal (q ++ [c]) = 2 * bitsVal q + (if c = '1' then 1 else 0) := by
      rw [bitsVal_append]
      show bitsVal q * 2 ^ ([c].length) + bitsVal [c] = _
      show bitsVal q * 2 ^ ([c].length) +
        ((if c = '1' then 1 else 0) * 2 ^ (List.length ([] : List Char)) +
          bitsVal ([] : List Char)) = _
      show bitsVal q * 2 ^ 1 + ((if c = '1' then 1 else 0) * 2 ^ 0 + 0) = _
      ring
    by_cases hq : q = []
    · subst hq
      simp only [List.nil_append]
      rcases hc with h | h <;> subst h <;> decide
    · have ihq := ih hqb hq
      have hn1 : 1 ≤ q.length := List.length_pos.mpr hq
      by_cases hv : bitsVal q = 0
      · have hq0 : q = List.replicate q.length '0' := by
          conv_lhs => rw [← ihq]
          rw [hv, natToBits_zero]
          unfold zfill
          rw [show q.length - (['0'] : List Char).length = q.length - 1 from by simp]
          rw [show q.length = q.length - 1 + 1 from by omega, List.replicate_succ']
          simp
        rcases hc with h | h <;> subst h
        · have hval0 : bitsVal (q ++ ['0']) = 0 := by
            rw [hval, hv]
            decide
          rw [hval0, natToBits_zero,
            show (q ++ ['0']).length = q.length + 1 from by simp]
          rw [show zfill (q.length + 1) ['0']
              = List.replicate q.length '0' ++ ['0'] from by unfold zfill; simp]
          conv_rhs => rw [hq0]
        · have hval1 : bitsVal (q ++ ['1']) = 1 := by
            rw [hval, hv]
            decide
          rw [hval1, natToBits_one,
            show (q ++ ['1']).length = q.length + 1 from by simp]
          rw [show zfill (q.length + 1) ['1']
              = List.replicate q.length '0' ++ ['1'] from by unfold zfill; simp]
          conv_rhs => rw [hq0]
      · have hm2 : 2 ≤ 2 * bitsVal q + (if c = '1' then 1 else 0) := by
          by_cases h : c = '1' <;> simp [h] <;> omega
        have hbits : natToBits (2 * bitsVal q + (if c = '1' then 1 else 0)) =
            natToBits (bitsVal q) ++ [c] := by
          rw [natToBits_eq, if_neg (by omega)]
          have hdiv : (2 * bitsVal q + (if c = '1' then 1 else 0)) / 2 = bitsVal q := by
            by_cases h : c = '1' <;> simp [h] <;> omega
          have hmod : (if (2 * bitsVal q + (if c = '1' then 1 else 0)) % 2 = 0
              then '0' else '1') = c := by
            rcases hc with h | h <;> subst h <;> simp <;> omega
          rw [hdiv, hmod]
        rw [hval, hbits]
        rw [show (q ++ [c]).length = q.length + 1 from by simp]
        rw [zfill_append_singleton, ihq]

/-! ## Facts about ceilLog2 -/

theorem ceilLog2Aux_irrel : ∀ f g n, n ≤ f → n ≤ g →
    ceilLog2Aux f n = ceilLog2Aux g n := by
  intro f
  induction f with
  | zero =>
    intro g n hf hg
    match g with
    | 0 => rfl
    | g + 1 =>
      have h0 : n = 0 := by omega
      subst h0
      rfl
  | succ f ih =>
    intro g n hf hg
    match g with
    | 0 =>
      have h0 : n = 0 := by omega
      subst h0
      rfl
    | g + 1 =>
      show (if n ≤ 1 then 0 else ceilLog2Aux f ((n + 1) / 2) + 1)
        = (if n ≤ 1 then 0 else ceilLog2Aux g ((n + 1) / 2) + 1)
      by_cases h1 : n ≤ 1
      · simp [h1]
      · simp only [h1, if_false]
        rw [ih g ((n + 1) / 2) (by omega) (by omega)]

theorem ceilLog2_eq (n : Nat) :
    ceilLog2 n = if n ≤ 1 then 0 else ceilLog2 ((n + 1) / 2) + 1 := by
  unfold ceilLog2
  match n with
  | 0 => rfl
  | n + 1 =>
    show (if n + 1 ≤ 1 then 0 else ceilLog2Aux n ((n + 1 + 1) / 2) + 1) = _
    by_cases h1 : n + 1 ≤ 1
    · simp [h1]
    · simp only [h1, if_false]
      rw [ceilLog2Aux_irrel n ((n + 1 + 1) / 2) ((n + 1 + 1) / 2) (by omega) (le_refl _)]

theorem ceilLog2_eq_clog (n : Nat) : ceilLog2 n = Nat.clog 2 n := by
  induction n using Nat.strong_induction_on with
  | _ n ih =>
    rw [ceilLog2_eq]
    by_cases h1 : n ≤ 1
    · rw [if_pos h1, Nat.clog_of_right_le_one h1]
    · rw [if_neg h1, Nat.clog_of_two_le (by norm_num) (by omega)]
      rw [ih ((n + 1) / 2) (by omega)]
      norm_num

theorem le_two_pow_iff_ceilLog2_le (x y : Nat) : x ≤ 2 ^ y ↔ ceilLog2 x ≤ y := by
  rw [ceilLog2_eq_clog]
  exact Nat.le_pow_iff_clog_le (by norm_num)

/-- The width formula always leaves room for the whole rule number: with
`k = max(3, ceil(log2(log2(rule+1))))` the rule fits into `2 ^ k` bits,
so `zfill` never has to truncate. -/
theorem rule_lt_pow (rule : Nat) :
    rule < 2 ^ 2 ^ max 3 (ceilLog2 (ceilLog2 (rule + 1))) := by
  have h1 : ceilLog2 (ceilLog2 (rule + 1)) ≤ max 3 (ceilLog2 (ceilLog2 (rule + 1))) :=
    le_max_right _ _
  have h2 : ceilLog2 (rule + 1) ≤ 2 ^ max 3 (ceilLog2 (ceilLog2 (rule + 1))) :=
    (le_two_pow_iff_ceilLog2_le _ _).mpr h1
  have h3 : rule + 1 ≤ 2 ^ 2 ^ max 3 (ceilLog2 (ceilLog2 (rule + 1))) :=
    (le_two_pow_iff_ceilLog2_le _ _).mpr h2
  omega

theorem ruleBinary_length (rule k : Nat) (h : rule < 2 ^ 2 ^ k) :
    (ruleBinary rule k).length = 2 ^ k := by
  unfold ruleBinary
  rw [zfill_length]
  have h1 : 1 ≤ 2 ^ k := Nat.one_le_two_pow
  have := natToBits_length_le rule (2 ^ k) h1 h
  omega

theorem ruleBinary_bits (rule k : Nat) : isBitString (ruleBinary rule k) :=
  zfill_bits _ _ (natToBits_bits rule)

/-! ## The transition dictionary -/

theorem lookup_enumFrom (k : Nat) (l : List Char) :
    ∀ (s i : Nat) (h : i < l.length),
      List.lookup (zfill k (natToBits (s + i)))
        ((List.enumFrom s l).map (fun p => (zfill k (natToBits p.1), p.2)))
      = some (l.get ⟨i, h⟩) := by
  induction l with
  | nil => intro s i h; simp at h
  | cons c t ih =>
    intro s i h
    rw [List.enumFrom_cons, List.map_cons]
    match i with
    | 0 =>
      rw [List.lookup]
      simp
    | i + 1 =>
      rw [List.lookup]
      have hne : (zfill k (natToBits (s + (i + 1))) == zfill k (natToBits s)) = false := by
        rw [beq_eq_false_iff_ne]
        intro heq
        have := key_inj k heq
        omega
      rw [hne]
      have := ih (s + 1) i (by simp at h; omega)
      rw [show s + 1 + i = s + (i + 1) from by omega] at this
      rw [this]
      rfl

theorem lookup_transistions_key (rb : List Char) (k : Nat) (i : Nat)
    (h : i < rb.length) :
    List.lookup (zfill k (natToBits i)) (transistions rb k)
      = some (rb.reverse.get ⟨i, by simpa using h⟩) := by
  unfold transistions
  have := lookup_enumFrom k rb.reverse 0 i (by simpa using h)
  rw [show (0 : Nat) + i = i from by omega] at this
  rw [show rb.reverse.enum = List.enumFrom 0 rb.reverse from rfl]
  exact this

theorem lookup_transistions (rb : List Char) (k : Nat) (p : List Char)
    (hk : 1 ≤ k) (hlen : p.length = k) (hb : isBitString p)
    (hlt : bitsVal p < rb.length) :
    List.lookup p (transistions rb k)
      = some (rb.reverse.get ⟨bitsVal p, by simpa using hlt⟩) := by
  have hne : p ≠ [] := by
    intro h
    rw [h] at hlen
    simp at hlen
    omega
  have hcan : zfill k (natToBits (bitsVal p)) = p := by
    rw [← hlen]
    exact key_of_bitString p hb hne
  conv_lhs => rw [← hcan]
  exact lookup_transistions_key rb k (bitsVal p) hlt

theorem transistions_length (rb : List Char) (k : Nat) :
    (transistions rb k).length = rb.length := by
  unfold transistions
  simp

theorem transistions_keys (rb : List Char) (k : Nat) :
    (transistions rb k).map Prod.fst
      = (List.range rb.length).map (fun i => zfill k (natToBits i)) := by
  unfold transistions
  rw [List.map_map]
  have hcomp : (Prod.fst ∘ fun p : Nat × Char => (zfill k (natToBits p.1), p.2))
      = (fun i => zfill k (natToBits i)) ∘ Prod.fst := rfl
  rw [hcomp, ← List.map_map, List.enum_map_fst]
  simp

theorem transistions_keys_nodup (rb : List Char) (k : Nat) :
    ((transistions rb k).map Prod.fst).Nodup := by
  rw [transistions_keys]
  exact (List.nodup_range _).map (key_inj k)

theorem transistions_values (rb : List Char) (k : Nat) (e : List Char × Char)
    (he : e ∈ transistions rb k) : e.2 ∈ rb := by
  unfold transistions at he
  rcases List.mem_map.mp he with ⟨p, hp, hpe⟩
  rcases List.mem_iff_get.mp hp with ⟨j, hj⟩
  have hval : p = (j.val, rb.reverse.get ⟨j.val, by simpa using j.isLt⟩) := by
    rw [← hj]
    have := List.getElem_enum rb.reverse j.val (by simpa using j.isLt)
    simp [List.get_eq_getElem, this]
  have : e.2 = rb.reverse.get ⟨j.val, by simpa using j.isLt⟩ := by
    rw [← hpe, hval]
  rw [this]
  exact List.mem_reverse.mp (List.get_mem _ _ _)

theorem mem_transistions_key (rb : List Char) (k : Nat) (i : Nat)
    (h : i < rb.length) :
    zfill k (natToBits i) ∈ (transistions rb k).map Prod.fst := by
  rw [transistions_keys]
  exact List.mem_map.mpr ⟨i, List.mem_range.mpr h, rfl⟩

/-! ## The padded row and its windows -/

theorem window_spec (l : List Char) (x k : Nat) (h : x + k ≤ l.length) :
    pySlice l (x : Int) ((x : Int) + (k : Int)) = (l.drop x).take k := by
  unfold pySlice
  have hx : pyIndex l.length (x : Int) = x := by
    unfold pyIndex
    rw [if_neg (by omega)]
    omega
  have hxk : pyIndex l.length ((x : Int) + (k : Int)) = x + k := by
    unfold pyIndex
    rw [if_neg (by omega)]
    omega
  rw [hx, hxk, List.drop_take]
  congr 1
  omega

theorem window_length (l : List Char) (x k : Nat) (h : x + k ≤ l.length) :
    (pySlice l (x : Int) ((x : Int) + (k : Int))).length = k := by
  rw [window_spec l x k h]
  simp
  omega

theorem window_bits (l : List Char) (hl : isBitString l) (x k : Nat)
    (h : x + k ≤ l.length) :
    isBitString (pySlice l (x : Int) ((x : Int) + (k : Int))) := by
  rw [window_spec l x k h]
  intro c hc
  exact hl c (List.drop_subset _ _ (List.take_subset _ _ hc))

/-- The circular padding really is: the last `⌊k/2⌋` cells wrapped onto
the front, then the row, then the first `k - ⌊k/2⌋ - 1` cells wrapped
onto the back. -/
theorem currentStatePadded_eq (k w : Nat) (s : List Char)
    (hk2 : 2 ≤ k) (hkw : k ≤ w) (hs : s.length = w) :
    currentStatePadded k w s
      = s.drop (w - k / 2) ++ s ++ s.take (k - k / 2 - 1) := by
  have h1 : pyIndex s.length (-((k : Int) / 2)) = w - k / 2 := by
    unfold pyIndex
    rw [if_pos (by omega), hs]
    omega
  have h2 : pyIndex s.length (w : Int) = w := by
    unfold pyIndex
    rw [if_neg (by omega), hs]
    omega
  have h3 : pyIndex s.length 0 = 0 := by
    unfold pyIndex
    rw [if_neg (by omega)]
    simp
  have h4 : pyIndex s.length ((k : Int) - (k : Int) / 2 - 1) = k - k / 2 - 1 := by
    unfold pyIndex
    rw [if_neg (by omega), hs]
    omega
  unfold currentStatePadded pySlice
  rw [h1, h2, h3, h4, List.drop_zero]
  rw [show s.take w = s from by rw [← hs]; exact List.take_length s]

theorem currentStatePadded_length (k w : Nat) (s : List Char)
    (hk2 : 2 ≤ k) (hkw : k ≤ w) (hs : s.length = w) :
    (currentStatePadded k w s).length = w + k - 1 := by
  rw [currentStatePadded_eq k w s hk2 hkw hs]
  simp [hs]
  omega

theorem currentStatePadded_bits (k w : Nat) (s : List Char)
    (hb : isBitString s) : isBitString (currentStatePadded k w s) := by
  intro c hc
  unfold currentStatePadded pySlice at hc
  rcases List.mem_append.mp hc with h | h
  · rcases List.mem_append.mp h with h1 | h1
    · exact hb c (List.take_subset _ _ (List.drop_subset _ _ h1))
    · exact hb c h1
  · exact hb c (List.take_subset _ _ (List.drop_subset _ _ h))

/-! ## Totality of the simulation step -/

theorem nextCells_spec (rb : List Char) (k : Nat) (hk : 1 ≤ k)
    (hrb : isBitString rb) (hlen : rb.length = 2 ^ k)
    (padded : List Char) (hpb : isBitString padded) :
    ∀ (n x : Nat), x + n + k ≤ padded.length + 1 →
      ∃ out, nextCells (transistions rb k) k padded x n = some out ∧
        out.length = n ∧ isBitString out := by
  intro n
  induction n with
  | zero =>
    intro x hx
    exact ⟨[], rfl, rfl, fun c hc => absurd hc (List.not_mem_nil c)⟩
  | succ m ih =>
    intro x hx
    have hwin : x + k ≤ padded.length := by omega
    have hplen : (pySlice padded (x : Int) ((x : Int) + (k : Int))).length = k :=
      window_length padded x k hwin
    have hpbits : isBitString (pySlice padded (x : Int) ((x : Int) + (k : Int))) :=
      window_bits padded hpb x k hwin
    have hval : bitsVal (pySlice padded (x : Int) ((x : Int) + (k : Int))) < rb.length := by
      have h1 := bitsVal_lt (pySlice padded (x : Int) ((x : Int) + (k : Int)))
      rw [hplen] at h1
      rw [hlen]
      exact h1
    have hlook := lookup_transistions rb k _ hk hplen hpbits hval
    have hvbit : rb.reverse.get ⟨bitsVal (pySlice padded (x : Int) ((x : Int) + (k : Int))),
        by simpa using hval⟩ = '0' ∨
        rb.reverse.get ⟨bitsVal (pySlice padded (x : Int) ((x : Int) + (k : Int))),
        by simpa using hval⟩ = '1' :=
      hrb _ (List.mem_reverse.mp (List.get_mem _ _ _))
    obtain ⟨out, ho, holen, hobits⟩ := ih (x + 1) (by omega)
    refine ⟨rb.reverse.get ⟨bitsVal (pySlice padded (x : Int) ((x : Int) + (k : Int))),
      by simpa using hval⟩ :: out, ?_, by simp [holen], ?_⟩
    · show nextCells (transistions rb k) k padded x (m + 1) = _
      unfold nextCells
      rw [hlook, ho]
    · intro c hc
      rcases List.mem_cons.mp hc with h | h
      · rw [h]
        exact hvbit
      · exact hobits c h

theorem nextState_spec (rb : List Char) (k w : Nat) (s : List Char)
    (hk3 : 3 ≤ k) (hkw : k ≤ w) (hrb : isBitString rb)
    (hlen : rb.length = 2 ^ k) (hs : s.length = w) (hsb : isBitString s) :
    ∃ ns, nextState (transistions rb k) k w s = some ns ∧
      ns.length = w ∧ isBitString ns := by
  have hpl : (currentStatePadded k w s).length = w + k - 1 :=
    currentStatePadded_length k w s (by omega) hkw hs
  have hpb : isBitString (currentStatePadded k w s) :=
    currentStatePadded_bits k w s hsb
  obtain ⟨out, ho, holen, hobits⟩ :=
    nextCells_spec rb k (by omega) hrb hlen _ hpb w 0 (by omega)
  exact ⟨out, ho, holen, hobits⟩

theorem simLoop_succ_none (table : List (List Char × Char)) (k w : Nat)
    (c : Bool) (n : Nat) (s : List Char)
    (h : nextState table k w s = none) :
    simLoop table k w c (n + 1) s = none := by
  conv_lhs => rw [simLoop]
  rw [h]

theorem simLoop_succ_some (table : List (List Char × Char)) (k w : Nat)
    (c : Bool) (n : Nat) (s ns : List Char)
    (h : nextState table k w s = some ns) :
    simLoop table k w c (n + 1) s
      = if boring ns s && c then some ([ns], true)
        else (simLoop table k w c n ns).map (fun p => (ns :: p.1, p.2)) := by
  conv_lhs => rw [simLoop]
  rw [h]

theorem simLoop_spec (rb : List Char) (k w : Nat) (c : Bool)
    (hk3 : 3 ≤ k) (hkw : k ≤ w) (hrb : isBitString rb)
    (hlen : rb.length = 2 ^ k) :
    ∀ (n : Nat) (s : List Char), s.length = w → isBitString s →
      ∃ st b, simLoop (transistions rb k) k w c n s = some (st, b) ∧
        (b = false → st.length = n) ∧ (b = true → c = true) ∧
        ∀ gen ∈ st, gen.length = w ∧ isBitString gen := by
  intro n
  induction n with
  | zero =>
    intro s hs hsb
    refine ⟨[], false, rfl, fun _ => rfl, fun hf => by simp at hf, ?_⟩
    intro gen hgen
    exact absurd hgen (List.not_mem_nil gen)
  | succ m ih =>
    intro s hs hsb
    obtain ⟨ns, hns, hnslen, hnsbits⟩ := nextState_spec rb k w s hk3 hkw hrb hlen hs hsb
    by_cases hbr : (boring ns s && c) = true
    · refine ⟨[ns], true, ?_, fun hf => by simp at hf, ?_, ?_⟩
      · rw [simLoop_succ_some _ _ _ _ _ _ _ hns, if_pos hbr]
      · intro _
        exact ((Bool.and_eq_true _ _).mp hbr).2
      · intro gen hgen
        rcases List.mem_singleton.mp hgen with h
        subst h
        exact ⟨hnslen, hnsbits⟩
    · obtain ⟨st, b, hst, hb1, hb2, hmem⟩ := ih ns hnslen hnsbits
      refine ⟨ns :: st, b, ?_, ?_, hb2, ?_⟩
      · rw [simLoop_succ_some _ _ _ _ _ _ _ hns, if_neg hbr, hst]
        rfl
      · intro hb
        simp [hb1 hb]
      · intro gen hgen
        rcases List.mem_cons.mp hgen with h | h
        · subst h
          exact ⟨hnslen, hnsbits⟩
        · exact hmem gen h

/-- The boring-rule `break` can only fire while retries remain: with the
break disarmed the loop always runs to completion. -/
theorem simLoop_break (table : List (List Char × Char)) (k w : Nat) (c : Bool) :
    ∀ (n : Nat) (s : List Char) (st : List (List Char)),
      simLoop table k w c n s = some (st, true) → c = true := by
  intro n
  induction n with
  | zero =>
    intro s st h
    simp [simLoop] at h
  | succ m ih =>
    intro s st h
    cases hns : nextState table k w s with
    | none =>
      rw [simLoop_succ_none _ _ _ _ _ _ hns] at h
      simp at h
    | some ns =>
      rw [simLoop_succ_some _ _ _ _ _ _ _ hns] at h
      by_cases hbr : (boring ns s && c) = true
      · exact ((Bool.and_eq_true _ _).mp hbr).2
      · rw [if_neg hbr] at h
        cases hrec : simLoop table k w c m ns with
        | none =>
          rw [hrec] at h
          simp at h
        | some p =>
          obtain ⟨st2, b2⟩ := p
          rw [hrec] at h
          simp at h
          exact ih ns st2 (by rw [hrec, h.2])

/-! ## The retry loop -/

theorem outerLoop_cons_none (w h g rem rule : Nat) (init : List Char)
    (rest : List (Nat × List Char))
    (hd : deriveTransitionTable rule = none) :
    outerLoop w h g rem ((rule, init) :: rest) = none := by
  conv_lhs => rw [outerLoop]
  rw [hd]

theorem outerLoop_cons_simNone (w h g rem rule : Nat) (init : List Char)
    (rest : List (Nat × List Char)) (k : Nat) (table : List (List Char × Char))
    (hd : deriveTransitionTable rule = some (k, table))
    (hs : simLoop table k w (decide (1 < rem)) (h + g) init = none) :
    outerLoop w h g rem ((rule, init) :: rest) = none := by
  conv_lhs => rw [outerLoop]
  rw [hd]
  show (match simLoop table k w (decide (1 < rem)) (h + g) init with
    | none => none
    | some (states, broke) =>
      if broke then outerLoop w h g (rem - 1) rest
      else some (init :: states)) = none
  rw [hs]

theorem outerLoop_cons_some (w h g rem rule : Nat) (init : List Char)
    (rest : List (Nat × List Char)) (k : Nat) (table : List (List Char × Char))
    (st : List (List Char)) (b : Bool)
    (hd : deriveTransitionTable rule = some (k, table))
    (hs : simLoop table k w (decide (1 < rem)) (h + g) init = some (st, b)) :
    outerLoop w h g rem ((rule, init) :: rest)
      = if b then outerLoop w h g (rem - 1) rest else some (init :: st) := by
  conv_lhs => rw [outerLoop]
  rw [hd]
  show (match simLoop table k w (decide (1 < rem)) (h + g) init with
    | none => none
    | some (states, broke) =>
      if broke then outerLoop w h g (rem - 1) rest
      else some (init :: states)) = _
  rw [hs]

/-- The retry loop never looks past its `remaining_tries` budget in the
random stream: with a budget of `n` only the first `n` draws matter. -/
theorem outerLoop_take (w h g : Nat) :
    ∀ (l : List (Nat × List Char)) (n : Nat), 1 ≤ n →
      outerLoop w h g n l = outerLoop w h g n (l.take n) := by
  intro l
  induction l with
  | nil =>
    intro n hn
    rw [List.take_nil]
  | cons a t ih =>
    intro n hn
    obtain ⟨rule, init⟩ := a
    obtain ⟨n, rfl⟩ : ∃ m, n = m + 1 := ⟨n - 1, by omega⟩
    rw [List.take_succ_cons]
    cases hd : deriveTransitionTable rule with
    | none =>
      rw [outerLoop_cons_none w h g (n + 1) rule init t hd,
        outerLoop_cons_none w h g (n + 1) rule init (t.take n) hd]
    | some p =>
      obtain ⟨k, table⟩ := p
      cases hs : simLoop table k w (decide (1 < n + 1)) (h + g) init with
      | none =>
        rw [outerLoop_cons_simNone w h g (n + 1) rule init t k table hd hs,
          outerLoop_cons_simNone w h g (n + 1) rule init (t.take n) k table hd hs]
      | some q =>
        obtain ⟨states, broke⟩ := q
        rw [outerLoop_cons_some w h g (n + 1) rule init t k table states broke hd hs,
          outerLoop_cons_some w h g (n + 1) rule init (t.take n) k table states broke hd hs]
        cases broke with
        | false => rfl
        | true =>
          have hc : decide (1 < n + 1) = true := simLoop_break table k w _ _ init states hs
          have hn1 : 1 ≤ n := by
            have := of_decide_eq_true hc
            omega
          simp only [if_pos]
          exact ih n hn1

/-- With a positive budget, at least as many pseudo-random draws as the
budget, and every draw simulable, the retry loop accepts some grid, and
that grid always has exactly `height + generation_offset + 1`
generations of `width` bits each. -/
theorem outerLoop_spec (w h g : Nat) :
    ∀ (l : List (Nat × List Char)) (n : Nat), 1 ≤ n → n ≤ l.length →
      (∀ a ∈ l, validAttempt w a) →
      ∃ grid, outerLoop w h g n l = some grid ∧ grid.length = h + g + 1 ∧
        ∀ gen ∈ grid, gen.length = w ∧ isBitString gen := by
  intro l
  induction l with
  | nil =>
    intro n hn hlen hv
    simp at hlen
    omega
  | cons a t ih =>
    intro n hn hlen hv
    obtain ⟨rule, init⟩ := a
    have hva : validAttempt w (rule, init) := hv _ (List.mem_cons_self _ _)
    obtain ⟨hr1, hil, hib, hkw⟩ := hva
    set k := max 3 (ceilLog2 (ceilLog2 (rule + 1))) with hk
    have hd : deriveTransitionTable rule
        = some (k, transistions (ruleBinary rule k) k) := by
      unfold deriveTransitionTable currentStateWidth
      rw [if_neg (by omega)]
      rfl
    have hk3 : 3 ≤ k := le_max_left _ _
    have hrblen : (ruleBinary rule k).length = 2 ^ k :=
      ruleBinary_length rule k (rule_lt_pow rule)
    have hrbb := ruleBinary_bits rule k
    obtain ⟨st, b, hst, hb1, hb2, hmem⟩ :=
      simLoop_spec (ruleBinary rule k) k w (decide (1 < n)) hk3 hkw hrbb hrblen
        (h + g) init hil hib
    rw [outerLoop_cons_some w h g n rule init t k _ st b hd hst]
    cases b with
    | false =>
      refine ⟨init :: st, by rw [if_neg (by simp)], by simp [hb1 rfl], ?_⟩
      intro gen hgen
      rcases List.mem_cons.mp hgen with h1 | h1
      · subst h1
        exact ⟨hil, hib⟩
      · exact hmem gen h1
    | true =>
      have hn2 : 1 < n := by
        have := of_decide_eq_true (hb2 rfl)
        omega
      rw [if_pos rfl]
      exact ih (n - 1) (by omega) (by simp at hlen; omega) (fun a ha => hv a (List.mem_cons_of_mem _ ha))

/-! ## Unpacking a successful derivation -/

theorem deriveTransitionTable_inv (rule k : Nat) (table : List (List Char × Char))
    (hd : deriveTransitionTable rule = some (k, table)) :
    1 ≤ rule ∧ k = max 3 (ceilLog2 (ceilLog2 (rule + 1))) ∧
      table = transistions (ruleBinary rule k) k ∧ 3 ≤ k ∧
      (ruleBinary rule k).length = 2 ^ k := by
  by_cases h0 : rule = 0
  · subst h0
    simp [deriveTransitionTable, currentStateWidth] at hd
  · unfold deriveTransitionTable currentStateWidth at hd
    rw [if_neg h0] at hd
    simp only [Option.map_some', Option.some.injEq, Prod.mk.injEq] at hd
    obtain ⟨hk, htab⟩ := hd
    subst hk
    exact ⟨by omega, rfl, htab.symm, le_max_left _ _,
      ruleBinary_length rule _ (rule_lt_pow rule)⟩

theorem reconstruct_transistions (rb : List Char) (k : Nat)
    (hlen : rb.length = 2 ^ k) :
    reconstruct k (transistions rb k) = rb := by
  unfold reconstruct
  apply List.ext_getElem
  · simp [hlen]
  · intro i h1 h2
    simp only [List.getElem_map, List.getElem_range]
    have hone : 1 ≤ 2 ^ k := Nat.one_le_two_pow
    have hi : 2 ^ k - 1 - i < rb.length := by
      rw [hlen]
      omega
    rw [lookup_transistions_key rb k (2 ^ k - 1 - i) hi]
    simp only [Option.getD_some]
    rw [List.get_eq_getElem, List.getElem_reverse]
    congr 1
    show rb.length - 1 - (2 ^ k - 1 - i) = i
    omega

/-! ## The claims -/

/-- C1 (amended): for every rule `≥ 1` the table derivation succeeds and
returns the neighborhood width `k = max(3, ceil(log2(log2(rule+1))))`
with `k ≥ 3`, and a transition table with exactly `2^k` entries under
pairwise distinct keys, each entry a single bit; in particular this
holds for `rule = 1`.  (For `rule = 0` the derivation raises instead,
see the counterexample.) -/
theorem claim_C1_derive_table_total (rule : Nat) (hr : 1 ≤ rule) :
    ∃ k table, deriveTransitionTable rule = some (k, table) ∧
      k = max 3 (ceilLog2 (ceilLog2 (rule + 1))) ∧ 3 ≤ k ∧
      table.length = 2 ^ k ∧
      (∀ e ∈ table, e.2 = '0' ∨ e.2 = '1') ∧
      (table.map Prod.fst).Nodup := by
  have hd : deriveTransitionTable rule
      = some (max 3 (ceilLog2 (ceilLog2 (rule + 1))),
          transistions (ruleBinary rule (max 3 (ceilLog2 (ceilLog2 (rule + 1)))))
            (max 3 (ceilLog2 (ceilLog2 (rule + 1))))) := by
    unfold deriveTransitionTable currentStateWidth
    rw [if_neg (by omega)]
    rfl
  refine ⟨_, _, hd, rfl, le_max_left _ _, ?_, ?_, transistions_keys_nodup _ _⟩
  · rw [transistions_length, ruleBinary_length rule _ (rule_lt_pow rule)]
  · intro e he
    exact ruleBinary_bits rule _ e.2 (transistions_values _ _ e he)

/-- C1 counterexample: for `rule = 0` the derivation does not succeed
(the embedded `none` of the `math domain error` raised by
`math.log2(math.log2(0+1))`), contradicting "for every non-negative
integer rule, deriving the transition table succeeds ... in particular
... rule = 0". -/
theorem claim_C1_counterexample : deriveTransitionTable 0 = none := rfl

/-- C1 witness: the amended theorem applied at `rule = 1`. -/
theorem claim_C1_witness : 1 ≤ 1 ∧
    ∃ k table, deriveTransitionTable 1 = some (k, table) ∧
      k = max 3 (ceilLog2 (ceilLog2 (1 + 1))) ∧ 3 ≤ k ∧
      table.length = 2 ^ k ∧
      (∀ e ∈ table, e.2 = '0' ∨ e.2 = '1') ∧
      (table.map Prod.fst).Nodup :=
  ⟨le_refl 1, claim_C1_derive_table_total 1 (le_refl 1)⟩

/-- C3: for a generation of width `w ≥ k` (and the invariantly true
`k ≥ 3`), the padded row wraps `⌊k/2⌋` tail cells onto the head and
`k - ⌊k/2⌋ - 1` head cells onto the tail, has length `w + k - 1`, and
the neighborhood window extracted at every position `x < w` (including
`0` and `w - 1`) has exactly `k` cells. -/
theorem claim_C3_padding_windows (k w : Nat) (s : List Char)
    (hk : 3 ≤ k) (hw : k ≤ w) (hs : s.length = w) :
    currentStatePadded k w s
        = s.drop (w - k / 2) ++ s ++ s.take (k - k / 2 - 1) ∧
    (currentStatePadded k w s).length = w + k - 1 ∧
    ∀ x < w, (pySlice (currentStatePadded k w s)
        (x : Int) ((x : Int) + (k : Int))).length = k := by
  refine ⟨currentStatePadded_eq k w s (by omega) hw hs,
    currentStatePadded_length k w s (by omega) hw hs, ?_⟩
  intro x hx
  apply window_length
  rw [currentStatePadded_length k w s (by omega) hw hs]
  omega

/-- C3 witness: the theorem applied at `k = 3`, `w = 4`,
`s = "0110"`. -/
theorem claim_C3_witness : 3 ≤ 4 ∧
    (currentStatePadded 3 4 ['0', '1', '1', '0']).length = 4 + 3 - 1 :=
  ⟨by omega,
    (claim_C3_padding_windows 3 4 ['0', '1', '1', '0'] (by omega) (by omega)
      (by decide)).2.1⟩

/-- C4: for every rule on which table derivation succeeds, reading table
entry `i` into position `2^k - 1 - i` reconstructs exactly the rule's
binary representation zero-padded on the left to length `2^k` (the
source's `rule_binary`). -/
theorem claim_C4_round_trip (rule k : Nat) (table : List (List Char × Char))
    (hd : deriveTransitionTable rule = some (k, table)) :
    reconstruct k table = ruleBinary rule k := by
  obtain ⟨hr1, hk, htab, hk3, hlen⟩ := deriveTransitionTable_inv rule k table hd
  rw [htab]
  exact reconstruct_transistions _ k hlen

/-- C4 witness: the theorem applied at `rule = 1` (where `k = 3`). -/
theorem claim_C4_witness :
    reconstruct 3 (transistions (ruleBinary 1 3) 3) = ruleBinary 1 3 :=
  claim_C4_round_trip 1 3 (transistions (ruleBinary 1 3) 3) (by decide)

/-- C5: a step is classified boring exactly when the next generation
equals the current one, or is its pure left shift, or its pure right
shift; in particular every fixed-point step is boring. -/
theorem claim_C5_boring_iff (ns s : List Char) :
    (boring ns s = true ↔
      ns = s ∨ ns.drop 1 = s.dropLast ∨ ns.dropLast = s.drop 1) ∧
    boring s s = true := by
  constructor
  · unfold boring
    simp [Bool.or_eq_true, beq_iff_eq, or_assoc]
  · unfold boring
    simp

/-- C7: at rotation angle exactly 0, the required canvas equals the
target canvas and the translation is exactly `(0, 0)`. -/
theorem claim_C7_zero_rotation (imageWidth imageHeight : ℝ) :
    requiredImageWidth 0 imageWidth imageHeight = imageWidth ∧
    requiredImageHeight 0 imageWidth imageHeight = imageHeight ∧
    translation 0 imageWidth imageHeight = (0, 0) := by
  unfold translation requiredImageWidth requiredImageHeight
  simp

/-- C8 counterexample: with the consumer key present but equal to the
empty string (and the other three credentials present), the code still
sets the tweeting flag — it checks only `is not None`, never emptiness —
contradicting "for every configuration in which at least one of the four
is missing or an empty string, the tweeting flag is false". -/
theorem claim_C8_counterexample :
    tweeting (some "") (some "ck") (some "at") (some "as") = true := rfl

/-- C8 (amended): posting is enabled exactly when all four credential
fields are present (not `None`); the flag is false if and only if at
least one field is `None`.  Emptiness is not checked: a present but
empty credential still enables posting. -/
theorem claim_C8_tweeting_iff
    (consumer_key consumer_secret access_token access_token_secret :
      Option String) :
    tweeting consumer_key consumer_secret access_token access_token_secret = false
      ↔ (consumer_key = none ∨ consumer_secret = none ∨
          access_token = none ∨ access_token_secret = none) := by
  unfold tweeting
  rcases consumer_key with _ | a <;> rcases consumer_secret with _ | b <;>
    rcases access_token with _ | c <;> rcases access_token_secret with _ | d <;>
    simp

/-- C10: the color adjustment methods return a fresh color and leave the
receiver (all of `r`, `g`, `b`) unchanged; a call whose result is
discarded therefore has no effect on the original color. -/
theorem claim_C10_shift_receiver_unchanged (c : ColorRGB) (amount : ℚ) :
    (c.hue_shifted amount).1 = c ∧ (c.saturation_shifted amount).1 = c ∧
    (c.lightness_shifted amount).1 = c :=
  ⟨rfl, rfl, rfl⟩

/-- C9: for every rule in `[1, 2^32]` whose derivation succeeds and every
bit row of width `w ≥ k`, the table's key set is exactly the set of all
`k`-bit binary strings, and every window extracted from the padded row
is a key, so the per-cell dictionary lookup never fails. -/
theorem claim_C9_lookup_never_fails (rule k w : Nat)
    (table : List (List Char × Char)) (s : List Char)
    (_hr1 : 1 ≤ rule) (_hr2 : rule ≤ 2 ^ 32)
    (hd : deriveTransitionTable rule = some (k, table))
    (hkw : k ≤ w) (hs : s.length = w) (hsb : isBitString s) :
    (∀ p : List Char, p ∈ table.map Prod.fst ↔ (p.length = k ∧ isBitString p)) ∧
    ∀ x < w, ∃ v, table.lookup (pySlice (currentStatePadded k w s)
        (x : Int) ((x : Int) + (k : Int))) = some v := by
  obtain ⟨hru, hk, htab, hk3, hlen⟩ := deriveTransitionTable_inv rule k table hd
  subst htab
  constructor
  · intro p
    constructor
    · intro hp
      rw [transistions_keys] at hp
      rcases List.mem_map.mp hp with ⟨i, hi, hip⟩
      have hi2 : i < 2 ^ k := by
        rw [← hlen]
        exact List.mem_range.mp hi
      rw [← hip]
      exact ⟨key_length k i (by omega) hi2, key_bits k i⟩
    · rintro ⟨hp1, hp2⟩
      have hpne : p ≠ [] := by
        intro hnil
        rw [hnil] at hp1
        simp at hp1
        omega
      have hcan : zfill k (natToBits (bitsVal p)) = p := by
        rw [← hp1]
        exact key_of_bitString p hp2 hpne
      rw [← hcan]
      apply mem_transistions_key
      rw [hlen, ← hp1]
      exact bitsVal_lt p
  · intro x hx
    have hplen : (currentStatePadded k w s).length = w + k - 1 :=
      currentStatePadded_length k w s (by omega) hkw hs
    have hwin : x + k ≤ (currentStatePadded k w s).length := by omega
    refine ⟨_, lookup_transistions _ k _ (by omega)
      (window_length _ x k hwin)
      (window_bits _ (currentStatePadded_bits k w s hsb) x k hwin) ?_⟩
    rw [hlen]
    have h1 := bitsVal_lt
      (pySlice (currentStatePadded k w s) (x : Int) ((x : Int) + (k : Int)))
    rw [window_length _ x k hwin] at h1
    exact h1

/-- C9 witness: the theorem applied at rule 1 with `w = 3`,
`s = "101"`. -/
theorem claim_C9_witness : 1 ≤ (1 : Nat) ∧
    ((∀ p : List Char, p ∈ (transistions (ruleBinary 1 3) 3).map Prod.fst
        ↔ (p.length = 3 ∧ isBitString p)) ∧
      ∀ x : Nat, x < 3 → ∃ v, (transistions (ruleBinary 1 3) 3).lookup
          (pySlice (currentStatePadded 3 3 ['1', '0', '1'])
            (x : Int) ((x : Int) + ((3 : Nat) : Int))) = some v) :=
  ⟨le_refl 1, claim_C9_lookup_never_fails 1 3 3 (transistions (ruleBinary 1 3) 3)
    ['1', '0', '1'] (le_refl 1) (by norm_num) (by decide) (by omega) (by decide)
    (by decide)⟩

/-- C2: for every table produced by a successful derivation, every width
`w ≥ k`, every initial bit generation of that width and every step count,
the simulation loop produces exactly `steps + 1` generations, each a
string of exactly `w` characters over 0/1; and the retry loop (with its
default budget of 3 and simulable draws) always ends with a grid of
exactly `height + generation_offset + 1` generations. -/
theorem claim_C2_simulation_shape (rule k w steps h g : Nat)
    (table : List (List Char × Char)) (init : List Char)
    (attempts : List (Nat × List Char))
    (hd : deriveTransitionTable rule = some (k, table))
    (hkw : k ≤ w) (hinit : init.length = w) (hib : isBitString init)
    (hat : 3 ≤ attempts.length) (hav : ∀ a ∈ attempts, validAttempt w a) :
    (∃ grid, simulate table k w steps init = some grid ∧
      grid.length = steps + 1 ∧
      ∀ gen ∈ grid, gen.length = w ∧ isBitString gen) ∧
    (∃ grid, outerLoop w h g 3 attempts = some grid ∧
      grid.length = h + g + 1) := by
  obtain ⟨hru, hk, htab, hk3, hlen⟩ := deriveTransitionTable_inv rule k table hd
  subst htab
  constructor
  · obtain ⟨st, b, hst, hb1, hb2, hmem⟩ :=
      simLoop_spec (ruleBinary rule k) k w false hk3 hkw (ruleBinary_bits rule k)
        hlen steps init hinit hib
    have hbf : b = false := by
      cases b with
      | false => rfl
      | true => exact absurd (hb2 rfl) (by simp)
    subst hbf
    refine ⟨init :: st, ?_, by simp [hb1 rfl], ?_⟩
    · unfold simulate
      rw [hst]
      rfl
    · intro gen hgen
      rcases List.mem_cons.mp hgen with h1 | h1
      · subst h1
        exact ⟨hinit, hib⟩
      · exact hmem gen h1
  · obtain ⟨grid, hg1, hg2, _⟩ := outerLoop_spec w h g attempts 3 (by omega) hat hav
    exact ⟨grid, hg1, hg2⟩

/-- C2 witness: the theorem applied at rule 1, `w = 3`, one step, and a
stream of three rule-1 draws with `height = 1`, `generation_offset = 0`. -/
theorem claim_C2_witness : (3 : Nat) ≤ 3 ∧
    ((∃ grid, simulate (transistions (ruleBinary 1 3) 3) 3 3 1 ['1', '0', '1']
        = some grid ∧ grid.length = 1 + 1 ∧
        ∀ gen ∈ grid, gen.length = 3 ∧ isBitString gen) ∧
      (∃ grid, outerLoop 3 1 0 3
          [(1, ['1', '0', '1']), (1, ['1', '0', '1']), (1, ['1', '0', '1'])]
          = some grid ∧ grid.length = 1 + 0 + 1)) :=
  ⟨le_refl 3, claim_C2_simulation_shape 1 3 3 1 1 0 (transistions (ruleBinary 1 3) 3)
    ['1', '0', '1'] [(1, ['1', '0', '1']), (1, ['1', '0', '1']), (1, ['1', '0', '1'])]
    (by decide) (by omega) (by decide) (by decide) (by decide) (by decide)⟩

/-- C6 counterexample: rule 0 is drawable (`random.randint(0, 255)`),
and a run whose draws are rule 0 crashes in the width computation, so
the retry loop does not "always terminate with some fully simulated
grid". -/
theorem claim_C6_counterexample :
    outerLoop 3 1 0 3
      [(0, ['1', '0', '1']), (0, ['1', '0', '1']), (0, ['1', '0', '1'])] = none := rfl

/-- C6 (amended): the retry loop inspects at most 3 draws (its default
budget); on a boring step with attempts remaining it restarts with the
next draw, and once the budget is exhausted it accepts the final,
possibly boring, grid; provided every drawn rule is nonzero (rule 0
crashes the width computation instead), the loop terminates with a fully
simulated grid of `height + generation_offset + 1` generations. -/
theorem claim_C6_retry_bounded (w h g : Nat) (attempts : List (Nat × List Char))
    (h3 : 3 ≤ attempts.length) (hv : ∀ a ∈ attempts, validAttempt w a) :
    outerLoop w h g 3 attempts = outerLoop w h g 3 (attempts.take 3) ∧
    ∃ grid, outerLoop w h g 3 attempts = some grid ∧
      grid.length = h + g + 1 ∧ ∀ gen ∈ grid, gen.length = w ∧ isBitString gen :=
  ⟨outerLoop_take w h g attempts 3 (by omega),
    outerLoop_spec w h g attempts 3 (by omega) h3 hv⟩

/-- C6 witness: the theorem applied to a stream of three rule-255 draws
(rule 255 goes boring after two steps, so the budget is really exhausted
and the final boring grid is accepted). -/
theorem claim_C6_witness : (3 : Nat) ≤ 3 ∧
    (outerLoop 3 2 0 3
        [(255, ['1', '0', '1']), (255, ['1', '0', '1']), (255, ['1', '0', '1'])]
      = outerLoop 3 2 0 3
        ([(255, ['1', '0', '1']), (255, ['1', '0', '1']),
          (255, ['1', '0', '1'])].take 3) ∧
    ∃ grid, outerLoop 3 2 0 3
        [(255, ['1', '0', '1']), (255, ['1', '0', '1']), (255, ['1', '0', '1'])]
      = some grid ∧ grid.length = 2 + 0 + 1 ∧
      ∀ gen ∈ grid, gen.length = 3 ∧ isBitString gen) :=
  ⟨le_refl 3, claim_C6_retry_bounded 3 2 0
    [(255, ['1', '0', '1']), (255, ['1', '0', '1']), (255, ['1', '0', '1'])]
    (by decide) (by decide)⟩
